import Mathlib

/-!
# unordered.h

A verification development for the header `unordered.h`: one variadic function
`static void unordered(int unused, ...)` whose body only mentions its fixed
parameter, and a wrapper macro of the same name, selected by a chain of
preprocessor conditionals, that inserts the constant `0` in front of the caller's
argument expressions.

The embedding follows the header from top to bottom:

* `Config` holds the predefined macros the header tests;
* `body` is the function body under `#ifdef __KEIL__` / `#else`, run by a small
  interpreter for the three expression forms that occur in it;
* `macroBranch` is the `#if` / `#elif` chain, `macroDefn` the `#define` it reaches;
* `pp` is macro replacement with rescanning, `parseCall` reads the replaced tokens
  as a call, `checkCall` checks the call against the prototype;
* `runCall` evaluates the arguments of the call in a chosen order and then runs
  the function; `Outcome` collects the results over all orders;
* `diagnose` reads the "unused" diagnostics off the function definition.

Argument expressions are atomic: one expression is one token and its evaluation is
one step of the caller's state, so an evaluation order is a permutation of the
argument positions.
-/

namespace Unordered

/-! ## Values and expressions -/

/-- Static types of argument expressions, as far as the prototype tells them apart:
`int` is what the fixed parameter accepts, the others stand for any other type. -/
inductive Ty
  | int
  | ptr
  | blob
  deriving DecidableEq, Repr

/-- Values of argument expressions. -/
inductive Val
  | int (n : Int)
  | ptr (a : Nat)
  | blob (bytes : List Nat)
  deriving DecidableEq, Repr

/-- The static type of a value. -/
def Val.ty : Val → Ty
  | Val.int _ => Ty.int
  | Val.ptr _ => Ty.ptr
  | Val.blob _ => Ty.blob

/-- A fault raised while an expression is evaluated (an invalid access, say),
identified by a number. -/
abbrev Fault := Nat

/-- How an execution can end other than normally: with a fault of an expression,
or stuck (a state no compiled program reaches, such as reading a variable that is
not in scope). -/
inductive Abort
  | fault (f : Fault)
  | stuck
  deriving DecidableEq, Repr

/-- An expression of the caller: its static type and its evaluation, which from a
state either faults or yields a value of that type and the state after its side
effects. -/
structure Expr (σ : Type) where
  ty : Ty
  eval : σ → Except Fault (Val × σ)
  typed : ∀ s v s1, eval s = Except.ok (v, s1) → v.ty = ty

/-- The integer constant `n`, as the `0` of the replacement list. -/
def Expr.const {σ : Type} (n : Int) : Expr σ where
  ty := Ty.int
  eval := fun s => Except.ok (Val.int n, s)
  typed := by
    intro s v s1 h
    simp only [Except.ok.injEq, Prod.mk.injEq] at h
    rw [← h.1]
    rfl

/-- An expression whose evaluation faults with `f`, as an invalid access does. -/
def Expr.crash {σ : Type} (f : Fault) : Expr σ where
  ty := Ty.int
  eval := fun _ => Except.error f
  typed := by
    intro s v s1 h
    simp at h

/-! ## Configuration -/

/-- The predefined macros the header tests. In `#if` an identifier that is not
defined as a macro is replaced by `0`, so each version macro is an integer and `0`
when undefined; `__KEIL__` is only tested with `#ifdef`. `elidesComma` is a
property of the preprocessor, not of the header: whether it drops the comma in
front of a variadic parameter that received no tokens (the traditional
preprocessor of the Microsoft compiler does, the ISO C rules and GNU C without
`##` do not). -/
structure Config where
  __STDC_VERSION__ : Int
  _MSC_FULL_VER : Int
  __GNUC__ : Int
  __GNUC_MINOR__ : Int
  __GNUC_PATCHLEVEL__ : Int
  __KEIL__ : Bool
  elidesComma : Bool
  deriving DecidableEq, Repr

/-! ## The function body -/

/-- The expression forms of the function body. -/
inductive CExpr
  | var (x : String)
  | assign (x : String) (rhs : CExpr)
  | castVoid (e : CExpr)
  deriving DecidableEq, Repr

/-- The frame of a call: the named parameters and their values. The variadic
arguments have no name; without `va_start` the body cannot reach them. -/
abbrev Frame := List (String × Int)

/-- Replace the value of `x` in a frame; `none` when `x` is not in scope. -/
def Frame.set : Frame → String → Int → Option Frame
  | [], _, _ => none
  | (y, w) :: rest, x, v =>
    if y = x then some ((y, v) :: rest)
    else (Frame.set rest x v).map (fun r => (y, w) :: r)

/-- Evaluate a body expression in a frame: the value (`none` for an expression of
type `void`) and the frame afterwards; `none` when the evaluation is stuck. -/
def CExpr.eval : CExpr → Frame → Option (Option Int × Frame)
  | CExpr.var x, fr => (fr.lookup x).map (fun v => (some v, fr))
  | CExpr.assign x rhs, fr =>
    match CExpr.eval rhs fr with
    | some (some v, fr1) => (Frame.set fr1 x v).map (fun fr2 => (some v, fr2))
    | _ => none
  | CExpr.castVoid e, fr =>
    match CExpr.eval e fr with
    | some (_, fr1) => some (none, fr1)
    | none => none

/-- Run a list of expression statements. -/
def execStmts : List CExpr → Frame → Option Frame
  | [], fr => some fr
  | e :: rest, fr =>
    match CExpr.eval e fr with
    | some (_, fr1) => execStmts rest fr1
    | none => none

/-- The body of `unordered`: `(void)(unused=unused);` under `#ifdef __KEIL__`,
`(void)unused;` otherwise. -/
def body (c : Config) : List CExpr :=
  if c.__KEIL__ then [CExpr.castVoid (CExpr.assign "unused" (CExpr.var "unused"))]
  else [CExpr.castVoid (CExpr.var "unused")]

/-- The function `static void unordered(int unused, ...)`: the frame binds
`unused`, the body runs in it, the frame is dropped and nothing is returned. The
result is the caller's state after the call. -/
def unordered {σ : Type} (c : Config) (unused : Int) (_va : List Val) (s : σ) :
    Except Abort σ :=
  match execStmts (body c) [("unused", unused)] with
  | some _ => Except.ok s
  | none => Except.error Abort.stuck

/-- Whether a body expression mentions the variable `x`. -/
def CExpr.mentions (x : String) : CExpr → Bool
  | CExpr.var y => decide (y = x)
  | CExpr.assign y rhs => decide (y = x) || CExpr.mentions x rhs
  | CExpr.castVoid e => CExpr.mentions x e

/-- Whether an expression statement computes a value and drops it: it is neither
cast to `void` nor an assignment. -/
def CExpr.dropsValue : CExpr → Bool
  | CExpr.var _ => true
  | CExpr.assign _ _ => false
  | CExpr.castVoid _ => false

/-- The "unused" diagnostics. -/
inductive Diag
  | unusedParameter (x : String)
  | unusedValue (e : CExpr)
  deriving DecidableEq, Repr

/-- The "unused" diagnostics of the function definition: a parameter the body does
not mention, a statement of the body whose value is dropped. -/
def diagnose (c : Config) : List Diag :=
  (if (body c).any (CExpr.mentions "unused") then [] else [Diag.unusedParameter "unused"])
    ++ ((body c).filter CExpr.dropsValue).map Diag.unusedValue

/-! ## Macro selection -/

/-- The `#define` lines of the header, by the conditional that reaches them. -/
inductive Branch
  | c99
  | gnuMajor
  | gnuMinor
  | gnuPatch
  deriving DecidableEq, Repr

/-- The chain under `#else`: `#if __GNUC__ > 2`, `#elif __GNUC__ == 2 &&
__GNUC_MINOR__ > 95`, `#elif __GNUC__ == 2 && __GNUC_MINOR__ == 95 &&
__GNUC_PATCHLEVEL__ >= 3`, with no `#else` of its own. -/
def gnuBranch (c : Config) : Option Branch :=
  if c.__GNUC__ > 2 then some Branch.gnuMajor
  else if c.__GNUC__ = 2 ∧ c.__GNUC_MINOR__ > 95 then some Branch.gnuMinor
  else if c.__GNUC__ = 2 ∧ c.__GNUC_MINOR__ = 95 ∧ c.__GNUC_PATCHLEVEL__ ≥ 3 then
    some Branch.gnuPatch
  else none

/-- The conditional `#if __STDC_VERSION__ >= 199901L || _MSC_FULL_VER >=
140050727L`, with the GNU chain under its `#else`. -/
def macroBranch (c : Config) : Option Branch :=
  if c.__STDC_VERSION__ ≥ 199901 ∨ c._MSC_FULL_VER ≥ 140050727 then some Branch.c99
  else gnuBranch c

/-! ## Tokens, macro replacement, parsing -/

/-- Preprocessing tokens: identifiers, the punctuators of a call, integer
constants, and the caller's expressions as single tokens. -/
inductive Tok (σ : Type)
  | ident (name : String)
  | lparen
  | rparen
  | comma
  | num (n : Int)
  | expr (e : Expr σ)

/-- A function-like macro whose only parameter is variadic: the name the
replacement list uses for it, and the replacement list. -/
structure MacroDef (σ : Type) where
  varParam : String
  replacement : List (Tok σ)

/-- The replacement list of a branch: `unordered(...) unordered(0, __VA_ARGS__)`
for the first, `unordered(arguments...) unordered(0, arguments)` for the three
GNU ones. -/
def Branch.defn {σ : Type} : Branch → MacroDef σ
  | Branch.c99 =>
    ⟨"__VA_ARGS__", [Tok.ident "unordered", Tok.lparen, Tok.num 0, Tok.comma,
      Tok.ident "__VA_ARGS__", Tok.rparen]⟩
  | Branch.gnuMajor =>
    ⟨"arguments", [Tok.ident "unordered", Tok.lparen, Tok.num 0, Tok.comma,
      Tok.ident "arguments", Tok.rparen]⟩
  | Branch.gnuMinor =>
    ⟨"arguments", [Tok.ident "unordered", Tok.lparen, Tok.num 0, Tok.comma,
      Tok.ident "arguments", Tok.rparen]⟩
  | Branch.gnuPatch =>
    ⟨"arguments", [Tok.ident "unordered", Tok.lparen, Tok.num 0, Tok.comma,
      Tok.ident "arguments", Tok.rparen]⟩

/-- The macros in scope after the header: `unordered`, when a branch defines it. -/
def macroDefn {σ : Type} (c : Config) (name : String) : Option (MacroDef σ) :=
  if name = "unordered" then (macroBranch c).map Branch.defn else none

/-- Substitute the tokens `va` for the variadic parameter `p` in a replacement
list. With `elide`, a comma directly in front of the parameter is dropped when
`va` is empty. -/
def substitute {σ : Type} (elide : Bool) (p : String) (va : List (Tok σ)) :
    List (Tok σ) → List (Tok σ)
  | [] => []
  | Tok.comma :: rest =>
    match rest with
    | Tok.ident x :: _ =>
      if x = p ∧ elide = true ∧ va.isEmpty = true then substitute elide p va rest
      else Tok.comma :: substitute elide p va rest
    | _ => Tok.comma :: substitute elide p va rest
  | Tok.ident x :: rest =>
    if x = p then va ++ substitute elide p va rest
    else Tok.ident x :: substitute elide p va rest
  | t :: rest => t :: substitute elide p va rest

/-- Split a token list at its first `)`: the tokens before it and those after it;
`none` when there is none. -/
def splitClose {σ : Type} : List (Tok σ) → Option (List (Tok σ) × List (Tok σ))
  | [] => none
  | Tok.rparen :: rest => some ([], rest)
  | t :: rest => (splitClose rest).map (fun r => (t :: r.1, r.2))

/-- Macro replacement with rescanning. An identifier followed by `(` that names a
macro in scope and is not in `hide` is replaced by the macro's replacement list
with the argument tokens substituted; the result is rescanned with the name added
to `hide`, so a macro is not replaced again inside its own replacement. `fuel`
bounds the number of scanning steps; tokens left when it runs out stay as they
are. -/
def pp {σ : Type} (c : Config) : Nat → List String → List (Tok σ) → List (Tok σ)
  | 0, _, ts => ts
  | _ + 1, _, [] => []
  | fuel + 1, hide, Tok.ident n :: Tok.lparen :: rest =>
    match macroDefn c n, decide (n ∈ hide), splitClose rest with
    | some m, false, some (va, after) =>
      pp c fuel (n :: hide) (substitute c.elidesComma m.varParam va m.replacement)
        ++ pp c fuel hide after
    | _, _, _ => Tok.ident n :: pp c fuel hide (Tok.lparen :: rest)
  | fuel + 1, hide, t :: rest => t :: pp c fuel hide rest

/-- The argument tokens of an invocation: the expressions separated by commas. -/
def argToks {σ : Type} : List (Expr σ) → List (Tok σ)
  | [] => []
  | [e] => [Tok.expr e]
  | e :: rest => Tok.expr e :: Tok.comma :: argToks rest

/-- The invocation `unordered(e1, ..., eN)` as the caller writes it. -/
def invocation {σ : Type} (es : List (Expr σ)) : List (Tok σ) :=
  Tok.ident "unordered" :: Tok.lparen :: (argToks es ++ [Tok.rparen])

/-- The tokens the macro leaves for an invocation: `unordered(0, e1, ..., eN)`,
and `unordered(0)` when there are no expressions and the comma is dropped. -/
def expanded {σ : Type} (c : Config) (es : List (Expr σ)) : List (Tok σ) :=
  if c.elidesComma = true ∧ es.isEmpty = true then
    [Tok.ident "unordered", Tok.lparen, Tok.num 0, Tok.rparen]
  else
    Tok.ident "unordered" :: Tok.lparen :: Tok.num 0 :: Tok.comma ::
      (argToks es ++ [Tok.rparen])

/-- Parse `e1 , e2 , ... , eN )` with `N ≥ 1`: every argument is one expression. -/
def parseArgs {σ : Type} : List (Tok σ) → Option (List (Expr σ))
  | [] => none
  | t :: rest =>
    match (match t with
      | Tok.expr e => some e
      | Tok.num n => some (Expr.const n)
      | _ => none) with
    | none => none
    | some e =>
      match rest with
      | [Tok.rparen] => some [e]
      | Tok.comma :: rest2 => (parseArgs rest2).map (fun as => e :: as)
      | _ => none

/-- Parse a call `f ( argument-expression-list opt )`: the callee and the
arguments. -/
def parseCall {σ : Type} : List (Tok σ) → Option (String × List (Expr σ))
  | Tok.ident f :: Tok.lparen :: rest =>
    match rest with
    | [Tok.rparen] => some (f, [])
    | _ => (parseArgs rest).map (fun as => (f, as))
  | _ => none

/-- Check a call against the prototype `void unordered(int unused, ...)`: there
is an argument for the fixed parameter and its type is `int`; any number of
further arguments of any type. -/
def checkCall {σ : Type} : List (Expr σ) → Bool
  | [] => false
  | a :: _ => decide (a.ty = Ty.int)

/-- Compile the invocation `unordered(e1, ..., eN)` in a configuration: replace
macros, parse, check. The result is the argument list of the call of the function
`unordered`, or `none` when the invocation is not a well-formed call. -/
def compile {σ : Type} (c : Config) (es : List (Expr σ)) : Option (List (Expr σ)) :=
  match parseCall (pp c ((invocation es).length + 1) [] (invocation es)) with
  | some (f, args) => if f = "unordered" ∧ checkCall args = true then some args else none
  | none => none

/-- Build a translation unit that includes the header and invokes
`unordered(e1, ..., eN)` as a statement: `none` when the invocation does not
compile, else the "unused" diagnostics. The invocation adds none of its own: it
is a call of a function returning `void`, and each expression is passed as an
argument. -/
def build {σ : Type} (c : Config) (es : List (Expr σ)) : Option (List Diag) :=
  (compile c es).map (fun _ => diagnose c)

/-! ## Calls -/

/-- Evaluate the arguments at the positions `order`, in that order, each from the
state the previous one left: the values by position and the final state. The
first fault ends the evaluation. -/
def evalArgs {σ : Type} (args : List (Expr σ)) :
    List Nat → σ → Except Abort (List (Nat × Val) × σ)
  | [], s => Except.ok ([], s)
  | i :: rest, s =>
    match args[i]? with
    | none => Except.error Abort.stuck
    | some e =>
      match e.eval s with
      | Except.error f => Except.error (Abort.fault f)
      | Except.ok (v, s1) =>
        match evalArgs args rest s1 with
        | Except.error a => Except.error a
        | Except.ok (vs, s2) => Except.ok ((i, v) :: vs, s2)

/-- The state the evaluation of the arguments leaves, or how it aborts. -/
def argsOutcome {σ : Type} (args : List (Expr σ)) (order : List Nat) (s : σ) :
    Except Abort σ :=
  match evalArgs args order s with
  | Except.error a => Except.error a
  | Except.ok (_, s1) => Except.ok s1

/-- The values of the variadic arguments, by position. -/
def variadicValues (n : Nat) (vs : List (Nat × Val)) : List Val :=
  (List.range (n - 1)).filterMap (fun j => vs.lookup (j + 1))

/-- The call `unordered(args)`: the arguments are evaluated in the order `order`,
the value of the first is bound to `unused`, the others are passed as variadic
arguments, and the function runs. -/
def runCall {σ : Type} (c : Config) (args : List (Expr σ)) (order : List Nat) (s : σ) :
    Except Abort σ :=
  match evalArgs args order s with
  | Except.error a => Except.error a
  | Except.ok (vs, s1) =>
    match vs.lookup 0 with
    | some (Val.int u) => unordered c u (variadicValues args.length vs) s1
    | _ => Except.error Abort.stuck

/-- An evaluation order for `n` arguments: every position once. -/
def Admissible (n : Nat) (order : List Nat) : Prop :=
  order.Perm (List.range n)

instance decidableAdmissible (n : Nat) (order : List Nat) : Decidable (Admissible n order) :=
  inferInstanceAs (Decidable (order.Perm (List.range n)))

/-- The outcomes the invocation `unordered(e1, ..., eN)` can have from a state:
those of the compiled call under some admissible order. An invocation that does
not compile has none. -/
def Outcome {σ : Type} (c : Config) (es : List (Expr σ)) (s : σ) (o : Except Abort σ) :
    Prop :=
  ∃ args order, compile c es = some args ∧ Admissible args.length order ∧
    runCall c args order s = o

/-- The call the invocation `unordered(e1, ..., eN)` stands for: with the macro,
the constant `0` in front of the expressions; without it, the expressions as
written. -/
def callArgs {σ : Type} (c : Config) (es : List (Expr σ)) : List (Expr σ) :=
  match macroBranch c with
  | some _ => Expr.const 0 :: es
  | none => es

/-- The invocations `unordered(e1, ..., eN)` that are well-formed calls. Where the
macro is defined: at least one expression, or none under a preprocessor that drops
the comma in front of the empty variadic argument. Where it is not: a first
expression of type `int`, which the fixed parameter takes. -/
def Supported {σ : Type} (c : Config) (es : List (Expr σ)) : Prop :=
  (macroBranch c ≠ none ∧ (es ≠ [] ∨ c.elidesComma = true)) ∨
    (macroBranch c = none ∧ ∃ e rest, es = e :: rest ∧ e.ty = Ty.int)

/-- The position among the caller's expressions of a position of the call the
macro produces; the inserted constant has none. -/
def unshift : Nat → Option Nat
  | 0 => none
  | i + 1 => some i

/-- The statement sequence `e1; e2; ...; eN;`: each expression is evaluated, left
to right, and its value dropped. -/
def stmtSeq {σ : Type} : List (Expr σ) → σ → Except Abort σ
  | [], s => Except.ok s
  | e :: rest, s =>
    match e.eval s with
    | Except.error f => Except.error (Abort.fault f)
    | Except.ok (_, s1) => stmtSeq rest s1

/-! ## Expressions with an observable effect -/

/-- The expression `k++` on the `k`-th of a family of counters: it yields the old
value and increments the counter. The counters belong to the observer, not to the
header, which does no arithmetic; they are unbounded integers. -/
def incr (k : Nat) : Expr (Nat → Int) where
  ty := Ty.int
  eval := fun s => Except.ok (Val.int (s k), Function.update s k (s k + 1))
  typed := by
    intro s v s1 h
    simp only [Except.ok.injEq, Prod.mk.injEq] at h
    rw [← h.1]
    rfl

/-- An expression that appends the marker `m` to the shared sequence (a call
`mark(m)` of a function returning `int`, say) and yields `0`. -/
def append {μ : Type} (m : μ) : Expr (List μ) where
  ty := Ty.int
  eval := fun s => Except.ok (Val.int 0, s ++ [m])
  typed := by
    intro s v s1 h
    simp only [Except.ok.injEq, Prod.mk.injEq] at h
    rw [← h.1]
    rfl

/-- The argument at a position of a call whose expressions increment counters: the
inserted constant (`none`) or the increment of counter `k` (`some k`). -/
def counterArg : Option Nat → Expr (Nat → Int)
  | none => Expr.const 0
  | some k => incr k

/-- The argument at a position of a call whose expressions append markers: the
inserted constant (`none`) or the expression appending `m` (`some m`). -/
def markerArg {μ : Type} : Option μ → Expr (List μ)
  | none => Expr.const 0
  | some m => append m

/-! ## The function body cannot fail -/

theorem unordered_eq {σ : Type} (c : Config) (unused : Int) (va : List Val) (s : σ) :
    unordered c unused va s = Except.ok s := by
  unfold unordered body
  cases c.__KEIL__ <;> simp [execStmts, CExpr.eval, List.lookup, Frame.set]

/-! ## Macro replacement of the invocation -/

theorem splitClose_argToks {σ : Type} (es : List (Expr σ)) (after : List (Tok σ)) :
    splitClose (argToks es ++ Tok.rparen :: after) = some (argToks es, after) := by
  induction es with
  | nil => simp [argToks, splitClose]
  | cons e rest ih =>
    cases rest with
    | nil => simp [argToks, splitClose]
    | cons e2 rest2 =>
      simp only [argToks, List.cons_append, splitClose] at ih ⊢
      simp [ih]

theorem macroDefn_none {σ : Type} (c : Config) (n : String) (h : macroBranch c = none) :
    (macroDefn c n : Option (MacroDef σ)) = none := by
  unfold macroDefn
  split <;> simp [h]

theorem pp_of_none {σ : Type} (c : Config) (h : macroBranch c = none) (fuel : Nat)
    (hide : List String) (ts : List (Tok σ)) : pp c fuel hide ts = ts := by
  induction fuel generalizing ts hide with
  | zero => simp [pp]
  | succ k ih =>
    cases ts with
    | nil => simp [pp]
    | cons t rest =>
      cases t with
      | ident n =>
        cases rest with
        | nil => simp [pp, ih]
        | cons t2 rest2 =>
          cases t2 <;> simp [pp, ih, macroDefn_none c n h]
      | _ => simp [pp, ih]

theorem pp_of_hidden {σ : Type} (c : Config) (fuel : Nat) (hide : List String)
    (hh : "unordered" ∈ hide) (ts : List (Tok σ)) : pp c fuel hide ts = ts := by
  induction fuel generalizing ts with
  | zero => simp [pp]
  | succ k ih =>
    cases ts with
    | nil => simp [pp]
    | cons t rest =>
      cases t with
      | ident n =>
        cases rest with
        | nil => simp [pp, ih]
        | cons t2 rest2 =>
          cases t2 with
          | lparen =>
            by_cases hn : n = "unordered"
            · subst hn
              simp [pp, ih, hh]
            · simp [pp, ih, macroDefn, hn]
          | _ => simp [pp, ih]
      | _ => simp [pp, ih]

theorem argToks_eq_nil {σ : Type} (es : List (Expr σ)) : argToks es = [] ↔ es = [] := by
  cases es with
  | nil => simp [argToks]
  | cons e rest => cases rest <;> simp [argToks]

theorem substitute_defn {σ : Type} (c : Config) (b : Branch) (es : List (Expr σ)) :
    substitute c.elidesComma (Branch.defn b : MacroDef σ).varParam (argToks es)
      (Branch.defn b : MacroDef σ).replacement = expanded c es := by
  unfold expanded
  cases b <;> cases hel : c.elidesComma <;> cases es <;>
    simp [Branch.defn, substitute, argToks_eq_nil]

theorem pp_invocation {σ : Type} (c : Config) (b : Branch) (h : macroBranch c = some b)
    (fuel : Nat) (es : List (Expr σ)) :
    pp c (fuel + 1) [] (invocation es) = expanded c es := by
  unfold invocation
  simp only [pp, macroDefn, h, splitClose_argToks]
  simp [pp_of_hidden, substitute_defn]
  cases fuel <;> simp [pp]

/-! ## Parsing and checking the replaced tokens -/

theorem parseArgs_argToks {σ : Type} (e : Expr σ) (rest : List (Expr σ)) :
    parseArgs (argToks (e :: rest) ++ [Tok.rparen]) = some (e :: rest) := by
  induction rest generalizing e with
  | nil => simp [argToks, parseArgs]
  | cons e2 rest2 ih =>
    have h := ih e2
    simp only [argToks, List.cons_append, parseArgs] at h ⊢
    simp [h]

theorem parseCall_invocation {σ : Type} (es : List (Expr σ)) :
    parseCall (invocation es) = some ("unordered", es) := by
  cases es with
  | nil => simp [invocation, argToks, parseCall]
  | cons e rest =>
    have hp := parseArgs_argToks e rest
    cases rest with
    | nil => simp [invocation, argToks, parseCall, parseArgs]
    | cons e2 rest2 =>
      simp only [argToks, List.cons_append] at hp
      simp [invocation, argToks, parseCall, hp]

theorem parseCall_expanded {σ : Type} (c : Config) (es : List (Expr σ))
    (h : es ≠ [] ∨ c.elidesComma = true) :
    parseCall (expanded c es) = some ("unordered", Expr.const 0 :: es) := by
  cases es with
  | nil =>
    have hel : c.elidesComma = true := by simpa using h
    simp [expanded, hel, parseCall, parseArgs]
  | cons e rest =>
    have hp := parseArgs_argToks e rest
    simp [expanded, parseCall, parseArgs, hp]

theorem parseCall_expanded_nil {σ : Type} (c : Config) (h : c.elidesComma = false) :
    parseCall (expanded c ([] : List (Expr σ))) = none := by
  simp [expanded, h, parseCall, parseArgs, argToks]

theorem compile_of_branch {σ : Type} (c : Config) (b : Branch) (hb : macroBranch c = some b)
    (es : List (Expr σ)) (h : es ≠ [] ∨ c.elidesComma = true) :
    compile c es = some (Expr.const 0 :: es) := by
  unfold compile
  rw [pp_invocation c b hb, parseCall_expanded c es h]
  simp [checkCall, Expr.const]

theorem compile_nil_of_branch {σ : Type} (c : Config) (b : Branch)
    (hb : macroBranch c = some b) (h : c.elidesComma = false) :
    compile c ([] : List (Expr σ)) = none := by
  unfold compile
  rw [pp_invocation c b hb, parseCall_expanded_nil c h]

theorem compile_of_none {σ : Type} (c : Config) (hb : macroBranch c = none)
    (es : List (Expr σ)) :
    compile c es = if checkCall es = true then some es else none := by
  unfold compile
  rw [pp_of_none c hb, parseCall_invocation]
  simp

/-! ## Calls: evaluation of the arguments in a chosen order -/

theorem argsOutcome_eq_stmtSeq {σ : Type} (args : List (Expr σ)) (order : List Nat)
    (h : ∀ i ∈ order, i < args.length) (s : σ) :
    argsOutcome args order s = stmtSeq (order.filterMap (fun i => args[i]?)) s := by
  induction order generalizing s with
  | nil => simp [argsOutcome, evalArgs, stmtSeq]
  | cons i rest ih =>
    have hi : i < args.length := h i (List.mem_cons_self i rest)
    have hrest : ∀ j ∈ rest, j < args.length := fun j hj => h j (List.mem_cons_of_mem i hj)
    have hget : args[i]? = some args[i] := List.getElem?_eq_getElem hi
    have ih2 := fun t => ih hrest t
    simp only [argsOutcome] at ih2 ⊢
    simp only [evalArgs, hget, List.filterMap_cons, stmtSeq]
    cases hev : (args[i]).eval s with
    | error f => simp
    | ok r =>
      obtain ⟨v, s1⟩ := r
      simp only []
      rw [← ih2 s1]
      cases evalArgs args rest s1 with
      | error a => simp
      | ok r2 => simp

theorem int_of_ty {v : Val} (h : v.ty = Ty.int) : ∃ u, v = Val.int u := by
  cases v with
  | int n => exact ⟨n, rfl⟩
  | ptr a => simp [Val.ty] at h
  | blob b => simp [Val.ty] at h

theorem lookup_zero_of_evalArgs {σ : Type} (e0 : Expr σ) (es : List (Expr σ))
    (hty : e0.ty = Ty.int) (order : List Nat) (h0 : 0 ∈ order) (s s1 : σ)
    (vs : List (Nat × Val)) (hev : evalArgs (e0 :: es) order s = Except.ok (vs, s1)) :
    ∃ u, vs.lookup 0 = some (Val.int u) := by
  induction order generalizing s vs with
  | nil => simp at h0
  | cons i rest ih =>
    simp only [evalArgs] at hev
    cases hget : (e0 :: es)[i]? with
    | none => simp [hget] at hev
    | some e =>
      simp only [hget] at hev
      cases he : e.eval s with
      | error f => simp [he] at hev
      | ok r =>
        obtain ⟨v, s2⟩ := r
        simp only [he] at hev
        cases hrest : evalArgs (e0 :: es) rest s2 with
        | error a => simp [hrest] at hev
        | ok r2 =>
          obtain ⟨vs2, s3⟩ := r2
          simp only [hrest, Except.ok.injEq, Prod.mk.injEq] at hev
          obtain ⟨hvs, hs3⟩ := hev
          subst hvs hs3
          cases i with
          | zero =>
            simp only [List.getElem?_cons_zero, Option.some.injEq] at hget
            subst hget
            obtain ⟨u, hu⟩ := int_of_ty ((e0.typed s v s2 he).trans hty)
            exact ⟨u, by simp [List.lookup, hu]⟩
          | succ k =>
            have h0r : 0 ∈ rest := by simpa using h0
            obtain ⟨u, hu⟩ := ih h0r s2 vs2 hrest
            exact ⟨u, by simp [List.lookup, hu]⟩

theorem runCall_eq_argsOutcome {σ : Type} (c : Config) (e0 : Expr σ) (es : List (Expr σ))
    (hty : e0.ty = Ty.int) (order : List Nat) (h0 : 0 ∈ order) (s : σ) :
    runCall c (e0 :: es) order s = argsOutcome (e0 :: es) order s := by
  unfold runCall argsOutcome
  cases hev : evalArgs (e0 :: es) order s with
  | error a => rfl
  | ok r =>
    obtain ⟨vs, s1⟩ := r
    obtain ⟨u, hu⟩ := lookup_zero_of_evalArgs e0 es hty order h0 s s1 vs hev
    simp only [hu, unordered_eq]

theorem admissible_lt {n : Nat} {order : List Nat} (h : Admissible n order) :
    ∀ i ∈ order, i < n := by
  intro i hi
  exact List.mem_range.mp ((List.Perm.mem_iff h).mp hi)

theorem admissible_zero_mem {n : Nat} {order : List Nat} (h : Admissible (n + 1) order) :
    0 ∈ order :=
  (List.Perm.mem_iff h).mpr (List.mem_range.mpr (Nat.succ_pos n))

theorem runCall_eq_stmtSeq {σ : Type} (c : Config) (e0 : Expr σ) (es : List (Expr σ))
    (hty : e0.ty = Ty.int) (order : List Nat)
    (h : Admissible (e0 :: es).length order) (s : σ) :
    runCall c (e0 :: es) order s =
      stmtSeq (order.filterMap (fun i => (e0 :: es)[i]?)) s := by
  have h0 : 0 ∈ order := admissible_zero_mem (n := es.length) (by simpa using h)
  rw [runCall_eq_argsOutcome c e0 es hty order h0 s]
  exact argsOutcome_eq_stmtSeq _ order (admissible_lt h) s

/-! ## The supported invocations and their outcomes -/

theorem compile_of_supported {σ : Type} (c : Config) (es : List (Expr σ))
    (h : Supported c es) : compile c es = some (callArgs c es) := by
  unfold callArgs
  rcases h with ⟨hm, hn⟩ | ⟨hm, e, rest, hes, hty⟩
  · cases hb : macroBranch c with
    | none => exact absurd hb hm
    | some b => exact compile_of_branch c b hb es hn
  · rw [compile_of_none c hm, hm, hes]
    simp [checkCall, hty]

theorem compile_eq_none {σ : Type} (c : Config) (es : List (Expr σ))
    (h : ¬ Supported c es) : compile c es = none := by
  cases hb : macroBranch c with
  | some b =>
    cases es with
    | nil =>
      cases hel : c.elidesComma with
      | false => exact compile_nil_of_branch c b hb hel
      | true => exact absurd (Or.inl ⟨by simp [hb], Or.inr hel⟩) h
    | cons e rest => exact absurd (Or.inl ⟨by simp [hb], Or.inl (by simp)⟩) h
  | none =>
    rw [compile_of_none c hb]
    cases es with
    | nil => simp [checkCall]
    | cons e rest =>
      by_cases hty : e.ty = Ty.int
      · exact absurd (Or.inr ⟨hb, e, rest, rfl, hty⟩) h
      · simp [checkCall, hty]

theorem callArgs_head {σ : Type} (c : Config) (es : List (Expr σ)) (h : Supported c es) :
    ∃ e0 rest, callArgs c es = e0 :: rest ∧ e0.ty = Ty.int := by
  unfold callArgs
  rcases h with ⟨hm, _⟩ | ⟨hm, e, rest, hes, hty⟩
  · cases hb : macroBranch c with
    | none => exact absurd hb hm
    | some b => exact ⟨Expr.const 0, es, rfl, rfl⟩
  · rw [hm, hes]
    exact ⟨e, rest, rfl, hty⟩

/-- The outcomes of a supported invocation are those of the statement sequences
of the arguments of its call, one for every admissible order. -/
theorem outcome_iff {σ : Type} (c : Config) (es : List (Expr σ)) (h : Supported c es)
    (s : σ) (o : Except Abort σ) :
    Outcome c es s o ↔ ∃ order, Admissible (callArgs c es).length order ∧
      stmtSeq (order.filterMap (fun i => (callArgs c es)[i]?)) s = o := by
  obtain ⟨e0, rest, hargs, hty⟩ := callArgs_head c es h
  unfold Outcome
  rw [compile_of_supported c es h]
  constructor
  · rintro ⟨args, order, hc, hadm, hrun⟩
    have hc2 : callArgs c es = args := by simpa using hc
    subst hc2
    refine ⟨order, hadm, ?_⟩
    rw [← hrun]
    simp only [hargs] at hadm ⊢
    exact (runCall_eq_stmtSeq c e0 rest hty order hadm s).symm
  · rintro ⟨order, hadm, hrun⟩
    refine ⟨callArgs c es, order, rfl, hadm, ?_⟩
    rw [← hrun]
    simp only [hargs] at hadm ⊢
    exact runCall_eq_stmtSeq c e0 rest hty order hadm s

theorem not_outcome {σ : Type} (c : Config) (es : List (Expr σ)) (h : ¬ Supported c es)
    (s : σ) (o : Except Abort σ) : ¬ Outcome c es s o := by
  rintro ⟨args, order, hc, _⟩
  rw [compile_eq_none c es h] at hc
  exact absurd hc (by simp)

theorem filterMap_getElem?_range {α : Type} (l : List α) :
    (List.range l.length).filterMap (fun i => l[i]?) = l := by
  induction l with
  | nil => simp
  | cons a rest ih =>
    rw [List.length_cons, List.range_succ_eq_map, List.filterMap_cons]
    simp only [List.getElem?_cons_zero, List.filterMap_map]
    have : ((fun i => (a :: rest)[i]?) ∘ Nat.succ) = fun i => rest[i]? := by
      funext i
      simp
    rw [this, ih]

theorem perm_filterMap_getElem? {α : Type} (l : List α) (order : List Nat)
    (h : Admissible l.length order) : (order.filterMap (fun i => l[i]?)).Perm l := by
  have := List.Perm.filterMap (fun i => l[i]?) h
  rwa [filterMap_getElem?_range] at this

/-! ## Statement sequences -/

theorem mem_of_mem_filterMap_getElem? {α : Type} (l : List α) (order : List Nat) (x : α)
    (h : x ∈ order.filterMap (fun i => l[i]?)) : x ∈ l := by
  obtain ⟨i, _, hi⟩ := List.mem_filterMap.mp h
  exact List.getElem?_mem hi

theorem stmtSeq_of_total {σ : Type} (l : List (Expr σ))
    (h : ∀ e ∈ l, ∀ t, ∃ v t1, e.eval t = Except.ok (v, t1)) (s : σ) :
    ∃ s1, stmtSeq l s = Except.ok s1 := by
  induction l generalizing s with
  | nil => exact ⟨s, rfl⟩
  | cons e rest ih =>
    obtain ⟨v, t1, hv⟩ := h e (List.mem_cons_self e rest) s
    obtain ⟨s1, hs1⟩ := ih (fun e2 h2 => h e2 (List.mem_cons_of_mem e h2)) t1
    exact ⟨s1, by simp [stmtSeq, hv, hs1]⟩

theorem stmtSeq_of_pure {σ : Type} (l : List (Expr σ))
    (h : ∀ e ∈ l, ∀ t, ∃ v, e.eval t = Except.ok (v, t)) (s : σ) :
    stmtSeq l s = Except.ok s := by
  induction l with
  | nil => rfl
  | cons e rest ih =>
    obtain ⟨v, hv⟩ := h e (List.mem_cons_self e rest) s
    simp [stmtSeq, hv, ih (fun e2 h2 => h e2 (List.mem_cons_of_mem e h2))]

theorem stmtSeq_error {σ : Type} (l : List (Expr σ)) (s : σ) (a : Abort)
    (h : stmtSeq l s = Except.error a) :
    ∃ e ∈ l, ∃ t f, e.eval t = Except.error f ∧ a = Abort.fault f := by
  induction l generalizing s with
  | nil => simp [stmtSeq] at h
  | cons e rest ih =>
    simp only [stmtSeq] at h
    cases hev : e.eval s with
    | error f =>
      simp only [hev, Except.error.injEq] at h
      exact ⟨e, List.mem_cons_self e rest, s, f, hev, h.symm⟩
    | ok r =>
      obtain ⟨v, s1⟩ := r
      simp only [hev] at h
      obtain ⟨e2, he2, t, f, hf, ha⟩ := ih s1 h
      exact ⟨e2, List.mem_cons_of_mem e he2, t, f, hf, ha⟩

theorem mem_callArgs {σ : Type} (c : Config) (es : List (Expr σ)) (e : Expr σ)
    (h : e ∈ callArgs c es) : e = Expr.const 0 ∨ e ∈ es := by
  unfold callArgs at h
  cases hb : macroBranch c with
  | none =>
    rw [hb] at h
    exact Or.inr h
  | some b =>
    rw [hb] at h
    simpa using h

theorem outcome_exists {σ : Type} (c : Config) (es : List (Expr σ)) (h : Supported c es)
    (s : σ) : ∃ o, Outcome c es s o :=
  ⟨_, (outcome_iff c es h s _).mpr ⟨List.range (callArgs c es).length, List.Perm.refl _, rfl⟩⟩

/-! ## C1: every counter is incremented exactly once -/

theorem stmtSeq_counterArg (l : List (Option Nat)) (s : Nat → Int) :
    stmtSeq (l.map counterArg) s =
      Except.ok (fun k => s k + (l.countP (fun a => decide (a = some k)) : Nat)) := by
  induction l generalizing s with
  | nil => simp [stmtSeq]
  | cons a rest ih =>
    cases a with
    | none =>
      simp only [List.map_cons, counterArg, stmtSeq, Expr.const, ih]
      simp
    | some j =>
      simp only [List.map_cons, counterArg, stmtSeq, incr, ih]
      congr 1
      funext k
      by_cases hk : j = k
      · subst hk
        simp [List.countP_cons]
        ring
      · have hk2 : k ≠ j := fun h => hk h.symm
        simp [List.countP_cons, hk, Function.update_noteq hk2]

theorem countP_some (ids : List Nat) (k : Nat) :
    (ids.map some).countP (fun a => decide (a = some k)) = ids.count k := by
  induction ids with
  | nil => rfl
  | cons j rest ih =>
    by_cases hk : j = k
    · simp [List.countP_cons, List.count_cons, hk, ih]
    · simp [List.countP_cons, List.count_cons, hk, ih]

theorem callArgs_counters (c : Config) (ids : List Nat) :
    ∃ code : List (Option Nat), callArgs c (ids.map incr) = code.map counterArg ∧
      ∀ k, code.countP (fun a => decide (a = some k)) = ids.count k := by
  unfold callArgs
  cases macroBranch c with
  | none =>
    exact ⟨ids.map some, by simp [counterArg, Function.comp_def], fun k => countP_some ids k⟩
  | some b =>
    refine ⟨none :: ids.map some, by simp [counterArg, Function.comp_def], fun k => ?_⟩
    rw [List.countP_cons_of_neg]
    · exact countP_some ids k
    · simp

theorem filterMap_getElem?_map {α β : Type} (f : α → β) (code : List α) (order : List Nat) :
    order.filterMap (fun i => (code.map f)[i]?) =
      (order.filterMap (fun i => code[i]?)).map f := by
  rw [List.map_filterMap]
  congr 1
  funext i
  simp

/-- C1, as stated, fails for `N = 0`: under the C99 macro the invocation
`unordered()` becomes `unordered(0, )`, which is not a call, so there is no
execution after which the state could be compared. -/
theorem counters_once_counterexample :
    ¬ ∃ o, Outcome ⟨199901, 0, 0, 0, 0, false, false⟩ (([] : List Nat).map incr)
      (fun _ => 0) o := by
  rintro ⟨o, h⟩
  refine not_outcome _ _ ?_ _ _ h
  rintro (⟨_, h1 | h1⟩ | ⟨h1, _⟩)
  · exact h1 rfl
  · exact absurd h1 (by decide)
  · exact absurd h1 (by decide)

/-- C1, amended: for `N ≥ 1` pairwise distinct counters (and for `N = 0` where the
macro is defined and the preprocessor drops the comma in front of the empty
variadic argument), the invocation `unordered(k1++, ..., kN++)` has an execution,
and after every execution, whichever evaluation order it takes, each of the
counters is one more than before and every other counter is unchanged. -/
theorem counters_once (c : Config) (ids : List Nat) (hd : ids.Nodup)
    (hn : ids ≠ [] ∨ (macroBranch c ≠ none ∧ c.elidesComma = true)) (s : Nat → Int) :
    (∃ o, Outcome c (ids.map incr) s o) ∧
      ∀ o, Outcome c (ids.map incr) s o →
        o = Except.ok (fun k => if k ∈ ids then s k + 1 else s k) := by
  have hs : Supported c (ids.map incr) := by
    by_cases hm : macroBranch c = none
    · rcases hn with h | ⟨h, _⟩
      · cases ids with
        | nil => exact absurd rfl h
        | cons k rest => exact Or.inr ⟨hm, incr k, rest.map incr, rfl, rfl⟩
      · exact absurd hm h
    · rcases hn with h | ⟨_, h⟩
      · exact Or.inl ⟨hm, Or.inl (by simpa using h)⟩
      · exact Or.inl ⟨hm, Or.inr h⟩
  refine ⟨outcome_exists c _ hs s, ?_⟩
  intro o ho
  obtain ⟨order, hadm, hrun⟩ := (outcome_iff c _ hs s o).mp ho
  obtain ⟨code, hcode, hcount⟩ := callArgs_counters c ids
  rw [hcode] at hadm hrun
  rw [← hrun, filterMap_getElem?_map, stmtSeq_counterArg]
  congr 1
  funext k
  have hperm := perm_filterMap_getElem? code order (by simpa using hadm)
  rw [List.Perm.countP_eq _ hperm, hcount]
  by_cases hk : k ∈ ids
  · simp [hk, List.count_eq_one_of_mem hd hk]
  · simp [hk, List.count_eq_zero_of_not_mem hk]

/-- C1, amended, at `unordered(c4++, c9++)` from all counters zero, in the C99
configuration. -/
theorem counters_once_witness :
    (∃ o, Outcome ⟨199901, 0, 0, 0, 0, false, false⟩ ([4, 9].map incr) (fun _ => 0) o) ∧
      ∀ o, Outcome ⟨199901, 0, 0, 0, 0, false, false⟩ ([4, 9].map incr) (fun _ => 0) o →
        o = Except.ok (fun k => if k ∈ [4, 9] then 0 + 1 else 0) :=
  counters_once ⟨199901, 0, 0, 0, 0, false, false⟩ [4, 9] (by decide)
    (Or.inl (by decide)) (fun _ => 0)

/-! ## C2: the markers appended are a permutation of the markers given -/

theorem stmtSeq_markerArg {μ : Type} (l : List (Option μ)) (s : List μ) :
    stmtSeq (l.map markerArg) s = Except.ok (s ++ l.reduceOption) := by
  induction l generalizing s with
  | nil => simp [stmtSeq]
  | cons a rest ih =>
    cases a with
    | none => simp [markerArg, stmtSeq, Expr.const, ih]
    | some m => simp [markerArg, stmtSeq, append, ih]

theorem reduceOption_map_some {μ : Type} (ms : List μ) :
    (ms.map some).reduceOption = ms := by
  induction ms with
  | nil => rfl
  | cons m rest ih => simp [List.reduceOption_cons_of_some, ih]

theorem callArgs_markers {μ : Type} (c : Config) (ms : List μ) :
    ∃ code : List (Option μ), callArgs c (ms.map append) = code.map markerArg ∧
      code.reduceOption = ms := by
  unfold callArgs
  cases macroBranch c with
  | none =>
    exact ⟨ms.map some, by simp [markerArg, Function.comp_def], reduceOption_map_some ms⟩
  | some b =>
    refine ⟨none :: ms.map some, by simp [markerArg, Function.comp_def], ?_⟩
    simp [List.reduceOption_cons_of_none, reduceOption_map_some]

/-- C2: for a nonempty list of pairwise distinct markers (or an empty one where
the macro is defined and the preprocessor drops the comma in front of the empty
variadic argument) and every initial sequence `s`, the invocation whose `i`-th
expression appends the `i`-th marker has an execution, and every execution ends
with `s` followed by a permutation of the markers: each present, none twice,
nothing else. -/
theorem markers_permuted {μ : Type} (c : Config) (ms : List μ) (hd : ms.Nodup)
    (hn : ms ≠ [] ∨ (macroBranch c ≠ none ∧ c.elidesComma = true)) (s : List μ) :
    (∃ o, Outcome c (ms.map append) s o) ∧
      ∀ o, Outcome c (ms.map append) s o →
        ∃ l, l.Perm ms ∧ l.Nodup ∧ o = Except.ok (s ++ l) := by
  have hs : Supported c (ms.map append) := by
    by_cases hm : macroBranch c = none
    · rcases hn with h | ⟨h, _⟩
      · cases ms with
        | nil => exact absurd rfl h
        | cons m rest => exact Or.inr ⟨hm, append m, rest.map append, rfl, rfl⟩
      · exact absurd hm h
    · rcases hn with h | ⟨_, h⟩
      · exact Or.inl ⟨hm, Or.inl (by simpa using h)⟩
      · exact Or.inl ⟨hm, Or.inr h⟩
  refine ⟨outcome_exists c _ hs s, ?_⟩
  intro o ho
  obtain ⟨order, hadm, hrun⟩ := (outcome_iff c _ hs s o).mp ho
  obtain ⟨code, hcode, hred⟩ := callArgs_markers c ms
  rw [hcode] at hadm hrun
  rw [filterMap_getElem?_map, stmtSeq_markerArg] at hrun
  have hperm := perm_filterMap_getElem? code order (by simpa using hadm)
  have hperm2 : (order.filterMap (fun i => code[i]?)).reduceOption.Perm ms := by
    have := List.Perm.filterMap id hperm
    rw [← hred]
    exact this
  exact ⟨_, hperm2, (List.Perm.nodup_iff hperm2).mpr hd, hrun.symm⟩

/-- C2 at three markers appended to the sequence `[0]`, in the configuration of
the Microsoft compiler. -/
theorem markers_permuted_witness :
    (∃ o, Outcome ⟨0, 140050727, 0, 0, 0, false, true⟩ ([1, 2, 3].map append) [0] o) ∧
      ∀ o, Outcome ⟨0, 140050727, 0, 0, 0, false, true⟩ ([1, 2, 3].map append) [0] o →
        ∃ l, l.Perm [1, 2, 3] ∧ l.Nodup ∧ o = Except.ok ([0] ++ l) :=
  markers_permuted ⟨0, 140050727, 0, 0, 0, false, true⟩ [1, 2, 3] (by decide)
    (Or.inl (by decide)) [0]

/-! ## C3: the invocation with no expressions -/

/-- C3, as stated, fails: `unordered()` is not a valid invocation without the
macro, where it passes nothing for the fixed parameter, nor under the C99 or the
GNU macro, where it becomes `unordered(0, )`. -/
theorem zero_expressions_counterexample :
    compile ⟨0, 0, 0, 0, 0, false, false⟩ ([] : List (Expr Nat)) = none ∧
      compile ⟨199901, 0, 0, 0, 0, false, false⟩ ([] : List (Expr Nat)) = none ∧
      compile ⟨0, 0, 3, 0, 0, false, false⟩ ([] : List (Expr Nat)) = none :=
  ⟨rfl, rfl, rfl⟩

/-- C3, amended: `unordered()` is a valid invocation exactly where the macro is
defined and the preprocessor drops the comma in front of the empty variadic
argument; there it is the call `unordered(0)` and leaves the state as it was. In
every configuration the invocation `unordered(0)` is valid and leaves the state as
it was. -/
theorem zero_expressions {σ : Type} (c : Config) (s : σ) :
    ((∃ args, compile c ([] : List (Expr σ)) = some args) ↔
        (macroBranch c ≠ none ∧ c.elidesComma = true)) ∧
      (macroBranch c ≠ none ∧ c.elidesComma = true →
        compile c ([] : List (Expr σ)) = some [Expr.const 0] ∧
          ∀ o, Outcome c ([] : List (Expr σ)) s o ↔ o = Except.ok s) ∧
      ∀ o, Outcome c [(Expr.const 0 : Expr σ)] s o ↔ o = Except.ok s := by
  have hpure : ∀ (es : List (Expr σ)), Supported c es →
      (∀ e ∈ es, ∀ t, ∃ v, e.eval t = Except.ok (v, t)) →
      ∀ o, Outcome c es s o ↔ o = Except.ok s := by
    intro es hs hp o
    constructor
    · intro ho
      obtain ⟨order, _, hrun⟩ := (outcome_iff c es hs s o).mp ho
      rw [← hrun]
      apply stmtSeq_of_pure
      intro e he t
      rcases mem_callArgs c es e (mem_of_mem_filterMap_getElem? _ order e he) with h0 | hmem
      · exact ⟨Val.int 0, by rw [h0]; rfl⟩
      · exact hp e hmem t
    · intro ho
      obtain ⟨o2, ho2⟩ := outcome_exists c es hs s
      obtain ⟨order, _, hrun⟩ := (outcome_iff c es hs s o2).mp ho2
      have : o2 = Except.ok s := by
        rw [← hrun]
        apply stmtSeq_of_pure
        intro e he t
        rcases mem_callArgs c es e (mem_of_mem_filterMap_getElem? _ order e he) with h0 | hmem
        · exact ⟨Val.int 0, by rw [h0]; rfl⟩
        · exact hp e hmem t
      rw [ho, ← this]
      exact ho2
  refine ⟨?_, ?_, ?_⟩
  · constructor
    · rintro ⟨args, hargs⟩
      by_contra hne
      have hns : ¬ Supported c ([] : List (Expr σ)) := by
        rintro (⟨h1, h2 | h2⟩ | ⟨_, e, rest, hes, _⟩)
        · exact h2 rfl
        · exact hne ⟨h1, h2⟩
        · simp at hes
      rw [compile_eq_none c _ hns] at hargs
      simp at hargs
    · rintro ⟨h1, h2⟩
      exact ⟨_, compile_of_supported c [] (Or.inl ⟨h1, Or.inr h2⟩)⟩
  · rintro ⟨h1, h2⟩
    have hs : Supported c ([] : List (Expr σ)) := Or.inl ⟨h1, Or.inr h2⟩
    refine ⟨?_, hpure [] hs (by simp)⟩
    rw [compile_of_supported c [] hs]
    unfold callArgs
    cases hb : macroBranch c with
    | none => exact absurd hb h1
    | some b => rfl
  · apply hpure
    · by_cases hm : macroBranch c = none
      · exact Or.inr ⟨hm, Expr.const 0, [], rfl, rfl⟩
      · exact Or.inl ⟨hm, Or.inl (by simp)⟩
    · intro e he t
      have : e = Expr.const 0 := by simpa using he
      exact ⟨Val.int 0, by rw [this]; rfl⟩

/-- C3, amended, in the configuration of the Microsoft compiler, whose traditional
preprocessor drops the comma: `unordered()` is the call `unordered(0)`, and the
state `5` stays `5`. -/
theorem zero_expressions_witness :
    compile ⟨0, 140050727, 0, 0, 0, false, true⟩ ([] : List (Expr Nat)) =
        some [Expr.const 0] ∧
      ∀ o, Outcome ⟨0, 140050727, 0, 0, 0, false, true⟩ ([] : List (Expr Nat)) 5 o ↔
        o = Except.ok 5 :=
  (zero_expressions ⟨0, 140050727, 0, 0, 0, false, true⟩ (5 : Nat)).2.1 ⟨by decide, rfl⟩

/-! ## C4: every order is admissible, the statement sequence among them -/

theorem admissible_shift {n : Nat} {p : List Nat} (h : Admissible n p) :
    Admissible (n + 1) (0 :: p.map Nat.succ) := by
  unfold Admissible at h ⊢
  rw [List.range_succ_eq_map]
  exact List.Perm.cons 0 (List.Perm.map Nat.succ h)

theorem filterMap_shift {α : Type} (a : α) (l : List α) (p : List Nat) :
    (p.map Nat.succ).filterMap (fun i => (a :: l)[i]?) = p.filterMap (fun i => l[i]?) := by
  rw [List.filterMap_map]
  congr 1
  funext i
  simp

theorem outcome_of_order {σ : Type} (c : Config) (es : List (Expr σ)) (hs : Supported c es)
    (p : List Nat) (hp : Admissible es.length p) (s : σ) :
    Outcome c es s (stmtSeq (p.filterMap (fun i => es[i]?)) s) := by
  rw [outcome_iff c es hs]
  unfold callArgs
  cases macroBranch c with
  | none => exact ⟨p, hp, rfl⟩
  | some b =>
    refine ⟨0 :: p.map Nat.succ, admissible_shift hp, ?_⟩
    rw [List.filterMap_cons]
    simp only [List.getElem?_cons_zero]
    rw [filterMap_shift]
    rfl

theorem filterMap_unshift_range (n : Nat) :
    (List.range (n + 1)).filterMap unshift = List.range n := by
  rw [List.range_succ_eq_map, List.filterMap_cons]
  simp only [unshift, List.filterMap_map]
  have : (unshift ∘ Nat.succ) = some := by
    funext i
    rfl
  rw [this, List.filterMap_some]

theorem stmtSeq_unshift {σ : Type} (es : List (Expr σ)) (order : List Nat) (s : σ) :
    stmtSeq (order.filterMap (fun i => (Expr.const 0 :: es)[i]?)) s =
      stmtSeq ((order.filterMap unshift).filterMap (fun i => es[i]?)) s := by
  induction order generalizing s with
  | nil => rfl
  | cons i rest ih =>
    cases i with
    | zero =>
      simp only [List.filterMap_cons, List.getElem?_cons_zero, unshift]
      simp only [stmtSeq, Expr.const]
      exact ih s
    | succ j =>
      simp only [List.filterMap_cons, List.getElem?_cons_succ, unshift]
      cases hj : es[j]? with
      | none => exact ih s
      | some e =>
        simp only [stmtSeq]
        cases e.eval s with
        | error f => rfl
        | ok r => exact ih r.2

theorem order_of_outcome {σ : Type} (c : Config) (es : List (Expr σ)) (hs : Supported c es)
    (s : σ) (o : Except Abort σ) (ho : Outcome c es s o) :
    ∃ p, Admissible es.length p ∧ o = stmtSeq (p.filterMap (fun i => es[i]?)) s := by
  obtain ⟨order, hadm, hrun⟩ := (outcome_iff c es hs s o).mp ho
  unfold callArgs at hadm hrun
  cases hb : macroBranch c with
  | none =>
    rw [hb] at hadm hrun
    exact ⟨order, hadm, hrun.symm⟩
  | some b =>
    rw [hb] at hadm hrun
    refine ⟨order.filterMap unshift, ?_, ?_⟩
    · have h := List.Perm.filterMap unshift hadm
      rw [List.length_cons, filterMap_unshift_range] at h
      exact h
    · rw [← hrun]
      exact stmtSeq_unshift es order s

/-- C4: for a supported invocation and every permutation `p` of the positions of
its expressions, evaluating the expressions in the order `p` is an execution of
the invocation; in particular the outcome of the statement sequence
`e1; e2; ...; eN;` is one of the outcomes of `unordered(e1, ..., eN)`. The
invocation has no other outcomes than those of the permutations. -/
theorem every_order_admissible {σ : Type} (c : Config) (es : List (Expr σ))
    (hs : Supported c es) (s : σ) :
    (∀ p, Admissible es.length p →
        Outcome c es s (stmtSeq (p.filterMap (fun i => es[i]?)) s)) ∧
      Outcome c es s (stmtSeq es s) ∧
      ∀ o, Outcome c es s o →
        ∃ p, Admissible es.length p ∧ o = stmtSeq (p.filterMap (fun i => es[i]?)) s := by
  refine ⟨fun p hp => outcome_of_order c es hs p hp s, ?_, order_of_outcome c es hs s⟩
  have h := outcome_of_order c es hs (List.range es.length) (List.Perm.refl _) s
  rwa [filterMap_getElem?_range] at h

/-- C4 at `unordered(mark(1), mark(2))` from the sequence `[0]` under GNU C 3: the
order second-then-first, which leaves `[0, 2, 1]`, and the statement sequence,
which leaves `[0, 1, 2]`, are both outcomes. -/
theorem every_order_admissible_witness :
    Outcome ⟨0, 0, 3, 0, 0, false, false⟩ [append 1, append 2] [0]
        (Except.ok [0, 2, 1]) ∧
      Outcome ⟨0, 0, 3, 0, 0, false, false⟩ [append 1, append 2] [0]
        (Except.ok [0, 1, 2]) :=
  ⟨(every_order_admissible ⟨0, 0, 3, 0, 0, false, false⟩ [append 1, append 2]
      (Or.inl ⟨by decide, Or.inl (by simp)⟩) [0]).1 [1, 0] (by decide),
    (every_order_admissible ⟨0, 0, 3, 0, 0, false, false⟩ [append 1, append 2]
      (Or.inl ⟨by decide, Or.inl (by simp)⟩) [0]).2.1⟩

/-! ## C5: the construct has no effect of its own -/

/-- C5: the body of `unordered` leaves the caller's state as it is and returns
nothing, for every value of `unused` and every list of variadic values, in the
`__KEIL__` configuration as in the default one (`k` ranges over both); and a
supported invocation whose expressions are all free of side effects has exactly one
outcome, the state it started from. -/
theorem unordered_has_no_effect {σ : Type} (c : Config) (es : List (Expr σ))
    (hs : Supported c es) (hpure : ∀ e ∈ es, ∀ t, ∃ v, e.eval t = Except.ok (v, t)) (s : σ) :
    (∀ (k : Config) (unused : Int) (va : List Val) (t : σ),
        unordered k unused va t = Except.ok t) ∧
      (∃ o, Outcome c es s o) ∧ ∀ o, Outcome c es s o → o = Except.ok s := by
  refine ⟨fun k unused va t => unordered_eq k unused va t, outcome_exists c es hs s, ?_⟩
  intro o ho
  obtain ⟨order, _, hrun⟩ := (outcome_iff c es hs s o).mp ho
  rw [← hrun]
  apply stmtSeq_of_pure
  intro e he t
  rcases mem_callArgs c es e (mem_of_mem_filterMap_getElem? _ order e he) with h0 | hmem
  · exact ⟨Val.int 0, by rw [h0]; rfl⟩
  · exact hpure e hmem t

/-- C5 at the invocation `unordered(7)` of the C99 configuration. -/
theorem unordered_has_no_effect_witness :
    (∀ (k : Config) (unused : Int) (va : List Val) (t : Nat),
        unordered k unused va t = Except.ok t) ∧
      (∃ o, Outcome ⟨199901, 0, 0, 0, 0, false, false⟩ [(Expr.const 7 : Expr Nat)] 5 o) ∧
      ∀ o, Outcome ⟨199901, 0, 0, 0, 0, false, false⟩ [(Expr.const 7 : Expr Nat)] 5 o →
        o = Except.ok 5 :=
  unordered_has_no_effect ⟨199901, 0, 0, 0, 0, false, false⟩ [Expr.const 7]
    (Or.inl ⟨by decide, Or.inl (by simp)⟩)
    (by
      intro e he t
      have : e = Expr.const 7 := by simpa using he
      exact ⟨Val.int 7, by rw [this]; rfl⟩)
    5

/-! ## C6: a fault of an expression is the fault of the invocation -/

theorem evalArgs_append_error {σ : Type} (args : List (Expr σ)) (pre rest : List Nat)
    (s s1 : σ) (vs : List (Nat × Val)) (a : Abort)
    (hpre : evalArgs args pre s = Except.ok (vs, s1))
    (hrest : evalArgs args rest s1 = Except.error a) :
    evalArgs args (pre ++ rest) s = Except.error a := by
  induction pre generalizing s vs with
  | nil =>
    simp only [evalArgs, Except.ok.injEq, Prod.mk.injEq] at hpre
    rw [List.nil_append, hpre.2]
    exact hrest
  | cons i pre2 ih =>
    simp only [evalArgs, List.cons_append] at hpre ⊢
    cases hget : args[i]? with
    | none => simp [hget] at hpre
    | some e =>
      simp only [hget] at hpre ⊢
      cases he : e.eval s with
      | error f => simp [he] at hpre
      | ok r =>
        obtain ⟨v, s2⟩ := r
        simp only [he] at hpre ⊢
        cases hp2 : evalArgs args pre2 s2 with
        | error a2 => simp [hp2] at hpre
        | ok r2 =>
          obtain ⟨vs2, s3⟩ := r2
          simp only [hp2, Except.ok.injEq, Prod.mk.injEq] at hpre
          have h2 : evalArgs args (pre2 ++ rest) s2 = Except.error a :=
            ih s2 vs2 (by rw [hp2, hpre.2])
          show (match evalArgs args (pre2 ++ rest) s2 with
            | Except.error a => Except.error a
            | Except.ok (vs, s2) => Except.ok ((i, v) :: vs, s2)) = Except.error a
          rw [h2]

/-- C6: in an execution of a supported invocation, once the arguments at the
positions `pre` have been evaluated and the next one faults with `f`, the
invocation faults with `f`; and when an invocation aborts at all, it aborts with
the fault of one of the caller's expressions: the function body reports nothing
and nothing is caught or replaced. -/
theorem fault_propagates {σ : Type} (c : Config) (es : List (Expr σ))
    (hs : Supported c es) (s : σ) :
    (∀ (order pre post : List Nat) (i : Nat) (vs : List (Nat × Val)) (s1 : σ)
        (e : Expr σ) (f : Fault),
        Admissible (callArgs c es).length order → order = pre ++ i :: post →
        evalArgs (callArgs c es) pre s = Except.ok (vs, s1) →
        (callArgs c es)[i]? = some e → e.eval s1 = Except.error f →
        runCall c (callArgs c es) order s = Except.error (Abort.fault f) ∧
          Outcome c es s (Except.error (Abort.fault f))) ∧
      ∀ a, Outcome c es s (Except.error a) →
        ∃ e ∈ es, ∃ t f, e.eval t = Except.error f ∧ a = Abort.fault f := by
  constructor
  · intro order pre post i vs s1 e f hadm horder hpre hget hf
    have hrun : runCall c (callArgs c es) order s = Except.error (Abort.fault f) := by
      obtain ⟨e0, rest, hargs, hty⟩ := callArgs_head c es hs
      rw [hargs] at hadm hpre hget ⊢
      have h0 : 0 ∈ order := admissible_zero_mem (n := rest.length) (by simpa using hadm)
      rw [runCall_eq_argsOutcome c e0 rest hty order h0 s, horder]
      unfold argsOutcome
      have hnext : evalArgs (e0 :: rest) (i :: post) s1 = Except.error (Abort.fault f) := by
        simp [evalArgs, hget, hf]
      rw [evalArgs_append_error (e0 :: rest) pre (i :: post) s s1 vs _ hpre hnext]
    exact ⟨hrun, ⟨callArgs c es, order, compile_of_supported c es hs, hadm, hrun⟩⟩
  · intro a ha
    obtain ⟨order, _, hrun⟩ := (outcome_iff c es hs s _).mp ha
    obtain ⟨e, he, t, f, hf, haf⟩ := stmtSeq_error _ s a hrun
    rcases mem_callArgs c es e (mem_of_mem_filterMap_getElem? _ order e he) with h0 | hmem
    · rw [h0] at hf
      simp [Expr.const] at hf
    · exact ⟨e, hmem, t, f, hf, haf⟩

/-- C6 at `unordered(mark(1), *(int *)0, mark(2))` in the C99 configuration,
evaluated in the order first, second, third expression and then the inserted
constant: the fault 11 of the second expression is the outcome. -/
theorem fault_propagates_witness :
    runCall ⟨199901, 0, 0, 0, 0, false, false⟩
        (callArgs ⟨199901, 0, 0, 0, 0, false, false⟩ [append 1, Expr.crash 11, append 2])
        [1, 2, 3, 0] [] = Except.error (Abort.fault 11) ∧
      Outcome ⟨199901, 0, 0, 0, 0, false, false⟩ [append 1, Expr.crash 11, append 2] []
        (Except.error (Abort.fault 11)) :=
  (fault_propagates ⟨199901, 0, 0, 0, 0, false, false⟩
      [append 1, Expr.crash 11, append 2] (Or.inl ⟨by decide, Or.inl (by simp)⟩) []).1
    [1, 2, 3, 0] [1] [3, 0] 2 [(1, Val.int 0)] [1] (Expr.crash 11) 11
    (by decide) rfl rfl rfl rfl

/-! ## C7: the construct cannot fail -/

/-- C7, as stated, fails for `N = 0`: under the C99 macro the invocation
`unordered()` becomes `unordered(0, )`, which is not a call; no expression faults,
and yet the invocation has no normal completion. -/
theorem unordered_cannot_fail_counterexample :
    (∀ e ∈ ([] : List (Expr Nat)), ∀ t, ∃ v t1, e.eval t = Except.ok (v, t1)) ∧
      ¬ ∃ s1, Outcome ⟨199901, 0, 0, 0, 0, false, false⟩ ([] : List (Expr Nat)) 0
        (Except.ok s1) := by
  refine ⟨by simp, ?_⟩
  rintro ⟨s1, h⟩
  refine not_outcome _ _ ?_ _ _ h
  rintro (⟨_, h1 | h1⟩ | ⟨h1, _⟩)
  · exact h1 rfl
  · exact absurd h1 (by decide)
  · exact absurd h1 (by decide)

/-- C7, amended: a supported invocation whose expressions all evaluate without
fault completes normally in every admissible evaluation order, and the function
body completes normally for every value of its first argument and every list of
variadic values. -/
theorem unordered_cannot_fail {σ : Type} (c : Config) (es : List (Expr σ))
    (hs : Supported c es) (htotal : ∀ e ∈ es, ∀ t, ∃ v t1, e.eval t = Except.ok (v, t1))
    (s : σ) :
    (∀ order, Admissible (callArgs c es).length order →
        ∃ s1, runCall c (callArgs c es) order s = Except.ok s1) ∧
      (∃ s1, Outcome c es s (Except.ok s1)) ∧
      (∀ o, Outcome c es s o → ∃ s1, o = Except.ok s1) ∧
      ∀ (k : Config) (unused : Int) (va : List Val) (t : σ),
        unordered k unused va t = Except.ok t := by
  have hall : ∀ o, Outcome c es s o → ∃ s1, o = Except.ok s1 := by
    intro o ho
    obtain ⟨order, _, hrun⟩ := (outcome_iff c es hs s o).mp ho
    rw [← hrun]
    apply stmtSeq_of_total
    intro e he t
    rcases mem_callArgs c es e (mem_of_mem_filterMap_getElem? _ order e he) with h0 | hmem
    · exact ⟨Val.int 0, t, by rw [h0]; rfl⟩
    · exact htotal e hmem t
  refine ⟨?_, ?_, hall, fun k unused va t => unordered_eq k unused va t⟩
  · intro order hadm
    exact hall _ ⟨callArgs c es, order, compile_of_supported c es hs, hadm, rfl⟩
  · obtain ⟨o, ho⟩ := outcome_exists c es hs s
    obtain ⟨s1, hs1⟩ := hall o ho
    exact ⟨s1, hs1 ▸ ho⟩

/-- C7, amended, at `unordered(3, 4)` in the GNU C 2.95.3 configuration. -/
theorem unordered_cannot_fail_witness :
    (∀ order, Admissible
        (callArgs ⟨0, 0, 2, 95, 3, false, false⟩
          [(Expr.const 3 : Expr Nat), Expr.const 4]).length order →
        ∃ s1, runCall ⟨0, 0, 2, 95, 3, false, false⟩
          (callArgs ⟨0, 0, 2, 95, 3, false, false⟩ [(Expr.const 3 : Expr Nat), Expr.const 4])
          order 0 = Except.ok s1) ∧
      (∃ s1, Outcome ⟨0, 0, 2, 95, 3, false, false⟩ [(Expr.const 3 : Expr Nat), Expr.const 4] 0
        (Except.ok s1)) ∧
      (∀ o, Outcome ⟨0, 0, 2, 95, 3, false, false⟩ [(Expr.const 3 : Expr Nat), Expr.const 4] 0 o →
        ∃ s1, o = Except.ok s1) ∧
      ∀ (k : Config) (unused : Int) (va : List Val) (t : Nat),
        unordered k unused va t = Except.ok t :=
  unordered_cannot_fail ⟨0, 0, 2, 95, 3, false, false⟩ [Expr.const 3, Expr.const 4]
    (Or.inl ⟨by decide, Or.inl (by simp)⟩)
    (by
      intro e he t
      have : e = Expr.const 3 ∨ e = Expr.const 4 := by simpa using he
      rcases this with h | h <;> rw [h]
      · exact ⟨Val.int 3, t, rfl⟩
      · exact ⟨Val.int 4, t, rfl⟩)
    0

/-! ## C8: the macro inserts the leading `0` -/

/-- C8: in every configuration where a branch defines the macro, and for every
invocation with at least one expression, macro replacement turns
`unordered(e1, ..., eN)` into the tokens `unordered(0, e1, ..., eN)` in one step,
whatever the number of scanning steps allowed; rescanning these tokens with
`unordered` hidden leaves them as they are; they parse as a call of `unordered`
whose arguments are the constant `0` followed by the caller's expressions, each
once and in source order; and this is the call the invocation compiles to. -/
theorem macro_inserts_zero {σ : Type} (c : Config) (b : Branch)
    (hb : macroBranch c = some b) (es : List (Expr σ)) (hn : es ≠ []) :
    (∀ fuel, pp c (fuel + 1) [] (invocation es) =
        Tok.ident "unordered" :: Tok.lparen :: Tok.num 0 :: Tok.comma ::
          (argToks es ++ [Tok.rparen])) ∧
      (∀ fuel, pp c fuel ["unordered"]
          (Tok.ident "unordered" :: Tok.lparen :: Tok.num 0 :: Tok.comma ::
            (argToks es ++ [Tok.rparen])) =
        Tok.ident "unordered" :: Tok.lparen :: Tok.num 0 :: Tok.comma ::
          (argToks es ++ [Tok.rparen])) ∧
      parseCall (Tok.ident "unordered" :: Tok.lparen :: Tok.num 0 :: Tok.comma ::
          (argToks es ++ [Tok.rparen])) = some ("unordered", Expr.const 0 :: es) ∧
      compile c es = some (Expr.const 0 :: es) := by
  have hexp : expanded c es = Tok.ident "unordered" :: Tok.lparen :: Tok.num 0 ::
      Tok.comma :: (argToks es ++ [Tok.rparen]) := by
    unfold expanded
    cases es with
    | nil => exact absurd rfl hn
    | cons e rest => simp
  refine ⟨fun fuel => ?_, fun fuel => ?_, ?_, compile_of_branch c b hb es (Or.inl hn)⟩
  · rw [pp_invocation c b hb fuel es, hexp]
  · exact pp_of_hidden c fuel ["unordered"] (by simp) _
  · rw [← hexp]
    exact parseCall_expanded c es (Or.inl hn)

/-- C8 at `unordered(1, 2)` under GNU C 2.96, the second of the GNU branches. -/
theorem macro_inserts_zero_witness :
    (∀ fuel, pp ⟨0, 0, 2, 96, 0, false, false⟩ (fuel + 1) []
        (invocation [(Expr.const 1 : Expr Nat), Expr.const 2]) =
        Tok.ident "unordered" :: Tok.lparen :: Tok.num 0 :: Tok.comma ::
          (argToks [(Expr.const 1 : Expr Nat), Expr.const 2] ++ [Tok.rparen])) ∧
      (∀ fuel, pp ⟨0, 0, 2, 96, 0, false, false⟩ fuel ["unordered"]
          (Tok.ident "unordered" :: Tok.lparen :: Tok.num 0 :: Tok.comma ::
            (argToks [(Expr.const 1 : Expr Nat), Expr.const 2] ++ [Tok.rparen])) =
        Tok.ident "unordered" :: Tok.lparen :: Tok.num 0 :: Tok.comma ::
          (argToks [(Expr.const 1 : Expr Nat), Expr.const 2] ++ [Tok.rparen])) ∧
      parseCall (Tok.ident "unordered" :: Tok.lparen :: Tok.num 0 :: Tok.comma ::
          (argToks [(Expr.const 1 : Expr Nat), Expr.const 2] ++ [Tok.rparen])) =
        some ("unordered", [Expr.const 0, Expr.const 1, Expr.const 2]) ∧
      compile ⟨0, 0, 2, 96, 0, false, false⟩ [(Expr.const 1 : Expr Nat), Expr.const 2] =
        some [Expr.const 0, Expr.const 1, Expr.const 2] :=
  macro_inserts_zero ⟨0, 0, 2, 96, 0, false, false⟩ Branch.gnuMinor (by decide)
    [Expr.const 1, Expr.const 2] (by simp)

/-! ## C9: no "unused" diagnostics -/

theorem diagnose_eq (c : Config) : diagnose c = [] := by
  unfold diagnose body
  cases c.__KEIL__ <;> simp [CExpr.mentions, CExpr.dropsValue]

/-- C9, as stated, fails for the zero-argument invocation: under the GNU macro
(here GNU C 2.95.3 with `__KEIL__` defined) `unordered()` becomes `unordered(0, )`
and the translation unit does not build, with or without diagnostics. -/
theorem no_unused_diagnostics_counterexample :
    build ⟨0, 0, 2, 95, 3, true, false⟩ ([] : List (Expr Nat)) = none ∧
      build ⟨0, 0, 2, 95, 3, true, false⟩ ([] : List (Expr Nat)) ≠ some [] :=
  ⟨rfl, by decide⟩

/-- C9, amended: a translation unit with a supported invocation, of one or of
several expressions (of none where the macro is defined and the preprocessor
drops the comma), builds without "unused" diagnostics; in the `__KEIL__`
configuration as in the default one the body mentions the parameter `unused`, and
no statement of the body drops a value. -/
theorem no_unused_diagnostics {σ : Type} (c : Config) (es : List (Expr σ))
    (hs : Supported c es) :
    build c es = some [] ∧
      (∀ k : Config, (body k).any (CExpr.mentions "unused") = true) ∧
      ∀ k : Config, ∀ e ∈ body k, CExpr.dropsValue e = false := by
  refine ⟨?_, ?_, ?_⟩
  · unfold build
    rw [compile_of_supported c es hs, diagnose_eq]
    rfl
  · intro k
    unfold body
    cases k.__KEIL__ <;> simp [CExpr.mentions]
  · intro k e he
    unfold body at he
    cases hk : k.__KEIL__ <;> simp [hk] at he <;> rw [he] <;> rfl

/-- C9, amended, at `unordered(1, 2, 3)` in the C99 configuration with `__KEIL__`
defined. -/
theorem no_unused_diagnostics_witness :
    build ⟨199901, 0, 0, 0, 0, true, false⟩
        [(Expr.const 1 : Expr Nat), Expr.const 2, Expr.const 3] = some [] ∧
      (∀ k : Config, (body k).any (CExpr.mentions "unused") = true) ∧
      ∀ k : Config, ∀ e ∈ body k, CExpr.dropsValue e = false :=
  no_unused_diagnostics ⟨199901, 0, 0, 0, 0, true, false⟩
    [Expr.const 1, Expr.const 2, Expr.const 3] (Or.inl ⟨by decide, Or.inl (by simp)⟩)

/-! ## C10: when the macro is defined -/

theorem gnuBranch_isSome (c : Config) :
    (gnuBranch c).isSome = true ↔
      c.__GNUC__ > 2 ∨ (c.__GNUC__ = 2 ∧ c.__GNUC_MINOR__ > 95) ∨
        (c.__GNUC__ = 2 ∧ c.__GNUC_MINOR__ = 95 ∧ c.__GNUC_PATCHLEVEL__ ≥ 3) := by
  unfold gnuBranch
  split_ifs with h1 h2 h3 <;> simp_all

theorem lex_triple (g m p : Int) :
    toLex ((2 : Int), toLex ((95 : Int), (3 : Int))) ≤ toLex (g, toLex (m, p)) ↔
      g > 2 ∨ (g = 2 ∧ m > 95) ∨ (g = 2 ∧ m = 95 ∧ p ≥ 3) := by
  rw [Prod.Lex.le_iff]
  simp only [ofLex_toLex, Prod.Lex.le_iff]
  constructor
  · rintro (h | ⟨h1, h2 | ⟨h2, h3⟩⟩)
    · exact Or.inl h
    · exact Or.inr (Or.inl ⟨h1.symm, h2⟩)
    · exact Or.inr (Or.inr ⟨h1.symm, h2.symm, h3⟩)
  · rintro (h | ⟨h1, h2⟩ | ⟨h1, h2, h3⟩)
    · exact Or.inl h
    · exact Or.inr ⟨h1.symm, Or.inl h2⟩
    · exact Or.inr ⟨h1.symm, Or.inr ⟨h2.symm, h3⟩⟩

/-- C10: with every undefined version macro read as `0`, the macro `unordered` is
defined exactly when `__STDC_VERSION__ >= 199901`, or `_MSC_FULL_VER >= 140050727`,
or the triple (`__GNUC__`, `__GNUC_MINOR__`, `__GNUC_PATCHLEVEL__`) is at least
(2, 95, 3) in the lexicographic order; the GNU chain by itself is exactly that
comparison; and in every other configuration no replacement takes place, so an
invocation that compiles is a call of the function with the arguments as written,
the first of which is the `int` of the caller. -/
theorem macro_defined_iff (c : Config) :
    ((macroBranch c).isSome = true ↔
        c.__STDC_VERSION__ ≥ 199901 ∨ c._MSC_FULL_VER ≥ 140050727 ∨
          toLex ((2 : Int), toLex ((95 : Int), (3 : Int))) ≤
            toLex (c.__GNUC__, toLex (c.__GNUC_MINOR__, c.__GNUC_PATCHLEVEL__))) ∧
      ((gnuBranch c).isSome = true ↔
        toLex ((2 : Int), toLex ((95 : Int), (3 : Int))) ≤
          toLex (c.__GNUC__, toLex (c.__GNUC_MINOR__, c.__GNUC_PATCHLEVEL__))) ∧
      (macroBranch c = none → ∀ (σ : Type) (es : List (Expr σ)),
        (∀ fuel, pp c fuel [] (invocation es) = invocation es) ∧
          ∀ args, compile c es = some args →
            args = es ∧ ∃ e rest, es = e :: rest ∧ e.ty = Ty.int) := by
  have hg := (gnuBranch_isSome c).trans
    (lex_triple c.__GNUC__ c.__GNUC_MINOR__ c.__GNUC_PATCHLEVEL__).symm
  refine ⟨?_, hg, ?_⟩
  · rw [← hg]
    unfold macroBranch
    by_cases h : c.__STDC_VERSION__ ≥ 199901 ∨ c._MSC_FULL_VER ≥ 140050727
    · simp only [h, if_true, Option.isSome_some, true_iff]
      rcases h with h | h
      · exact Or.inl h
      · exact Or.inr (Or.inl h)
    · simp only [h, if_false]
      constructor
      · intro hgb
        exact Or.inr (Or.inr hgb)
      · rintro (h1 | h1 | h1)
        · exact absurd (Or.inl h1) h
        · exact absurd (Or.inr h1) h
        · exact h1
  · intro hm σ es
    refine ⟨fun fuel => pp_of_none c hm fuel [] _, ?_⟩
    intro args hargs
    rw [compile_of_none c hm] at hargs
    cases es with
    | nil => simp [checkCall] at hargs
    | cons e rest =>
      by_cases hty : e.ty = Ty.int
      · simp only [checkCall, hty, decide_True, if_true, Option.some.injEq] at hargs
        exact ⟨hargs.symm, e, rest, rfl, hty⟩
      · simp [checkCall, hty] at hargs

end Unordered
